import Mathlib

/-!
Verification of the one-time pad generator in `opt_gen.py`.

The core function `generate_one_time_pad(length, group_size, line_length)`
draws `length` uniformly random uppercase letters (via
`secrets.choice(string.ascii_uppercase)`), then formats them into lines of
`line_length` letters, each line being groups of `group_size` letters joined
by single spaces.

The random source is modelled as an oracle `draw : Nat → Fin 26` giving the
index chosen by `secrets.choice` at the i-th iteration; everything after the
draw is a pure function of the drawn characters, translated statement by
statement from the Python source.
-/

namespace OTP

/-- `string.ascii_uppercase`: the 26 uppercase Latin letters, in order. -/
def ascii_uppercase : List Char :=
  ['A', 'B', 'C', 'D', 'E', 'F', 'G', 'H', 'I', 'J', 'K', 'L', 'M',
   'N', 'O', 'P', 'Q', 'R', 'S', 'T', 'U', 'V', 'W', 'X', 'Y', 'Z']

theorem ascii_uppercase_length : ascii_uppercase.length = 26 := rfl

/-- `secrets.choice(string.ascii_uppercase)` at iteration `i`, with the
oracle `draw` supplying the uniformly chosen index. -/
def choice (draw : Nat → Fin 26) (i : Nat) : Char :=
  ascii_uppercase.get ⟨(draw i).val, (draw i).isLt⟩

/-- `''.join(secrets.choice(string.ascii_uppercase) for _ in range(length))`. -/
def all_chars (draw : Nat → Fin 26) (length : Nat) : List Char :=
  (List.range length).map (fun i => choice draw i)

/-- Fuel-driven body of Python `range(start, stop, step)` for `step > 0`. -/
def rangeStepAux : Nat → Nat → Nat → Nat → List Nat
  | 0, _, _, _ => []
  | fuel + 1, start, stop, step =>
      if start < stop then start :: rangeStepAux fuel (start + step) stop step
      else []

/-- Python `range(start, stop, step)` for a positive `step`: the indices
`start, start + step, start + 2*step, ...` that are `< stop`.  (Python raises
on `step = 0`; that case never arises below and is mapped to `[]`.) -/
def rangeStep (start stop step : Nat) : List Nat :=
  if step = 0 then [] else rangeStepAux (stop - start) start stop step

/-- Python `' '.join(...)`: concatenate, inserting one space between
consecutive elements. -/
def joinWithSpace : List (List Char) → List Char
  | [] => []
  | [g] => g
  | g :: gs => g ++ ' ' :: joinWithSpace gs

/-- `generate_one_time_pad` from `opt_gen.py`, line by line:
`all_chars` is the drawn pad; for `i in range(0, length, line_length)` the
slice `all_chars[i : i + line_length]` is a line segment; the line is the
slices `line_segment[j : j + group_size]` for
`j in range(0, len(line_segment), group_size)` joined by `' '`. -/
def generate_one_time_pad (draw : Nat → Fin 26)
    (length group_size line_length : Nat) : List (List Char) :=
  let all := all_chars draw length
  (rangeStep 0 length line_length).map (fun i =>
    let line_segment := (all.drop i).take line_length
    joinWithSpace ((rangeStep 0 line_segment.length group_size).map
      (fun j => (line_segment.drop j).take group_size)))

/-- The formatting stage alone, as a function of an arbitrary pad string:
identical to `generate_one_time_pad` after the draw. -/
def format_pad (pad : List Char) (group_size line_length : Nat) :
    List (List Char) :=
  (rangeStep 0 pad.length line_length).map (fun i =>
    let line_segment := (pad.drop i).take line_length
    joinWithSpace ((rangeStep 0 line_segment.length group_size).map
      (fun j => (line_segment.drop j).take group_size)))

/-- Specification-level partition of a list into consecutive blocks of
`step` elements, the last block possibly shorter (fuel-driven). -/
def chunkAux : Nat → List Char → Nat → List (List Char)
  | 0, _, _ => []
  | fuel + 1, l, step =>
      if l = [] then [] else l.take step :: chunkAux fuel (l.drop step) step

/-- Partition `l` into consecutive blocks of `step` elements, left to right,
the last block possibly shorter. -/
def chunk (l : List Char) (step : Nat) : List (List Char) :=
  if step = 0 then [] else chunkAux l.length l step

/-- Remove the separator characters (spaces) from a line. -/
def stripSpaces (l : List Char) : List Char :=
  l.filter (fun c => c ≠ ' ')

/-- Outcome of the GUI handler `OTPGeneratorApp.on_generate`: either an
error dialog message, or a generated pad inserted into the output box. -/
inductive GenOutcome where
  | error : String → GenOutcome
  | generated : List (List Char) → GenOutcome
deriving DecidableEq

/-- `OTPGeneratorApp.on_generate`: read the three entry strings, parse them
as integers (Python `int(...)`, modelled by the `parse` parameter; a
`ValueError` is `none`), reject non-positive values, otherwise call
`generate_one_time_pad`. -/
def on_generate (draw : Nat → Fin 26) (parse : String → Option Int)
    (length_var group_size_var line_length_var : String) : GenOutcome :=
  match parse length_var, parse group_size_var, parse line_length_var with
  | some length, some group_size, some line_length =>
      if length ≤ 0 ∨ group_size ≤ 0 ∨ line_length ≤ 0 then
        GenOutcome.error "Values must be positive integers."
      else
        GenOutcome.generated
          (generate_one_time_pad draw length.toNat group_size.toNat
            line_length.toNat)
  | _, _, _ =>
      GenOutcome.error
        "Please enter valid integers for Length, Group Size, and Line Length."

/-! ### Basic facts about the drawn pad -/

theorem all_chars_length (draw : Nat → Fin 26) (n : Nat) :
    (all_chars draw n).length = n := by
  simp [all_chars]

theorem mem_all_chars {draw : Nat → Fin 26} {n : Nat} {c : Char}
    (h : c ∈ all_chars draw n) : c ∈ ascii_uppercase := by
  simp only [all_chars, List.mem_map] at h
  obtain ⟨i, -, rfl⟩ := h
  exact List.get_mem _ _ _

theorem space_not_mem_ascii_uppercase : ' ' ∉ ascii_uppercase := by decide

theorem all_chars_ne_space {draw : Nat → Fin 26} {n : Nat} {c : Char}
    (h : c ∈ all_chars draw n) : c ≠ ' ' := by
  intro hc
  exact space_not_mem_ascii_uppercase (hc ▸ mem_all_chars h)

/-! ### Equations for `rangeStep` -/

theorem rangeStepAux_congr {step : Nat} (hstep : 0 < step) :
    ∀ f1 f2 start stop, stop - start ≤ f1 → stop - start ≤ f2 →
      rangeStepAux f1 start stop step = rangeStepAux f2 start stop step := by
  intro f1
  induction f1 with
  | zero =>
      intro f2 start stop h1 h2
      have hle : ¬ start < stop := by omega
      cases f2 with
      | zero => rfl
      | succ f2 => simp [rangeStepAux, hle]
  | succ f1 ih =>
      intro f2 start stop h1 h2
      cases f2 with
      | zero =>
          have hle : ¬ start < stop := by omega
          simp [rangeStepAux, hle]
      | succ f2 =>
          by_cases hlt : start < stop
          · simp only [rangeStepAux, hlt, if_true]
            exact congrArg _ (ih f2 (start + step) stop (by omega) (by omega))
          · simp [rangeStepAux, hlt]

theorem rangeStep_nil {start stop step : Nat} (h : stop ≤ start) :
    rangeStep start stop step = [] := by
  unfold rangeStep
  have : stop - start = 0 := by omega
  rw [this]
  split <;> rfl

theorem rangeStep_cons {start stop step : Nat} (hstep : 0 < step)
    (h : start < stop) :
    rangeStep start stop step = start :: rangeStep (start + step) stop step := by
  unfold rangeStep
  have hne : ¬ step = 0 := by omega
  simp only [hne, if_false]
  obtain ⟨f, hf⟩ : ∃ f, stop - start = f + 1 := ⟨stop - start - 1, by omega⟩
  rw [hf]
  simp only [rangeStepAux, h, if_true]
  exact congrArg _ (rangeStepAux_congr hstep f (stop - (start + step))
    (start + step) stop (by omega) (by omega))

/-! ### Equations and properties of `chunk` -/

theorem chunkAux_nil (fuel step : Nat) : chunkAux fuel [] step = [] := by
  cases fuel <;> simp [chunkAux]

theorem chunkAux_congr {step : Nat} (hstep : 0 < step) :
    ∀ f1 f2 (l : List Char), l.length ≤ f1 → l.length ≤ f2 →
      chunkAux f1 l step = chunkAux f2 l step := by
  intro f1
  induction f1 with
  | zero =>
      intro f2 l h1 h2
      have : l = [] := List.eq_nil_of_length_eq_zero (by omega)
      subst this
      rw [chunkAux_nil, chunkAux_nil]
  | succ f1 ih =>
      intro f2 l h1 h2
      by_cases hl : l = []
      · subst hl; rw [chunkAux_nil, chunkAux_nil]
      · have hpos : 0 < l.length := List.length_pos.mpr hl
        cases f2 with
        | zero => omega
        | succ f2 =>
            simp only [chunkAux, hl, if_false]
            refine congrArg _ (ih f2 (l.drop step) ?_ ?_) <;>
              simp only [List.length_drop] <;> omega

theorem chunk_nil (step : Nat) : chunk [] step = [] := by
  unfold chunk
  split
  · rfl
  · exact chunkAux_nil _ _

theorem chunk_cons {l : List Char} {step : Nat} (hstep : 0 < step)
    (hl : l ≠ []) :
    chunk l step = l.take step :: chunk (l.drop step) step := by
  unfold chunk
  have hne : ¬ step = 0 := by omega
  simp only [hne, if_false]
  have hpos : 0 < l.length := List.length_pos.mpr hl
  obtain ⟨f, hf⟩ : ∃ f, l.length = f + 1 := ⟨l.length - 1, by omega⟩
  rw [hf]
  simp only [chunkAux, hl, if_false]
  exact congrArg _ (chunkAux_congr hstep f (l.drop step).length (l.drop step)
    (by simp only [List.length_drop]; omega) le_rfl)

theorem chunk_singleton {l : List Char} {step : Nat} (hstep : 0 < step)
    (hl : l ≠ []) (hle : l.length ≤ step) : chunk l step = [l] := by
  rw [chunk_cons hstep hl, List.take_of_length_le hle,
    List.drop_eq_nil_of_le hle, chunk_nil]

theorem chunk_flatten {l : List Char} {step : Nat} (hstep : 0 < step) :
    (chunk l step).flatten = l := by
  suffices h : ∀ fuel (m : List Char), m.length ≤ fuel →
      (chunkAux fuel m step).flatten = m by
    unfold chunk
    have hne : ¬ step = 0 := by omega
    simp only [hne, if_false]
    exact h l.length l le_rfl
  intro fuel
  induction fuel with
  | zero =>
      intro m hm
      have : m = [] := List.eq_nil_of_length_eq_zero (by omega)
      subst this
      rfl
  | succ fuel ih =>
      intro m hm
      by_cases hmnil : m = []
      · subst hmnil; rfl
      · simp only [chunkAux, hmnil, if_false, List.flatten_cons]
        rw [ih (m.drop step) (by simp only [List.length_drop]; omega)]
        exact List.take_append_drop step m

theorem chunk_length {l : List Char} {step : Nat} (hstep : 0 < step) :
    (chunk l step).length = (l.length + step - 1) / step := by
  suffices h : ∀ fuel (m : List Char), m.length ≤ fuel →
      (chunkAux fuel m step).length = (m.length + step - 1) / step by
    unfold chunk
    have hne : ¬ step = 0 := by omega
    simp only [hne, if_false]
    exact h l.length l le_rfl
  intro fuel
  induction fuel with
  | zero =>
      intro m hm
      have : m = [] := List.eq_nil_of_length_eq_zero (by omega)
      subst this
      simp [chunkAux, Nat.div_eq_of_lt (by omega : step - 1 < step)]
  | succ fuel ih =>
      intro m hm
      by_cases hmnil : m = []
      · subst hmnil
        simp [chunkAux, Nat.div_eq_of_lt (by omega : step - 1 < step)]
      · have hpos : 0 < m.length := List.length_pos.mpr hmnil
        simp only [chunkAux, hmnil, if_false, List.length_cons]
        rw [ih (m.drop step) (by simp only [List.length_drop]; omega)]
        simp only [List.length_drop]
        have h1 : m.length + step - 1 = (m.length - 1) + step := by omega
        rw [h1, Nat.add_div_right _ hstep]
        by_cases hms : m.length ≤ step
        · have h2 : m.length - step = 0 := by omega
          rw [h2]
          rw [Nat.div_eq_of_lt (by omega : m.length - 1 < step),
            Nat.div_eq_of_lt (by omega : 0 + step - 1 < step)]
        · have h3 : m.length - step + step - 1 = (m.length - step - 1) + step := by
            omega
          rw [h3, Nat.add_div_right _ hstep]
          have h4 : m.length - 1 = (m.length - step - 1) + step := by omega
          rw [h4, Nat.add_div_right _ hstep]

theorem chunk_mem_subset {l x : List Char} {step : Nat}
    (hx : x ∈ chunk l step) : ∀ c ∈ x, c ∈ l := by
  suffices h : ∀ fuel (m : List Char), x ∈ chunkAux fuel m step →
      ∀ c ∈ x, c ∈ m by
    unfold chunk at hx
    split at hx
    · simp at hx
    · exact h l.length l hx
  intro fuel
  induction fuel with
  | zero => intro m hm; simp [chunkAux] at hm
  | succ fuel ih =>
      intro m hm
      by_cases hmnil : m = []
      · subst hmnil; rw [chunkAux_nil] at hm; simp at hm
      · simp only [chunkAux, hmnil, if_false, List.mem_cons] at hm
        rcases hm with rfl | hm
        · intro c hc; exact List.take_subset _ _ hc
        · intro c hc; exact List.drop_subset _ _ (ih (m.drop step) hm c hc)

theorem chunk_mem_length_le {l x : List Char} {step : Nat}
    (hx : x ∈ chunk l step) : x.length ≤ step := by
  suffices h : ∀ fuel (m : List Char), x ∈ chunkAux fuel m step →
      x.length ≤ step by
    unfold chunk at hx
    split at hx
    · simp at hx
    · exact h l.length l hx
  intro fuel
  induction fuel with
  | zero => intro m hm; simp [chunkAux] at hm
  | succ fuel ih =>
      intro m hm
      by_cases hmnil : m = []
      · subst hmnil; rw [chunkAux_nil] at hm; simp at hm
      · simp only [chunkAux, hmnil, if_false, List.mem_cons] at hm
        rcases hm with rfl | hm
        · simp
        · exact ih (m.drop step) hm

theorem chunk_mem_length_pos {l x : List Char} {step : Nat} (hstep : 0 < step)
    (hx : x ∈ chunk l step) : 0 < x.length := by
  suffices h : ∀ fuel (m : List Char), x ∈ chunkAux fuel m step →
      0 < x.length by
    unfold chunk at hx
    split at hx
    · simp at hx
    · exact h l.length l hx
  intro fuel
  induction fuel with
  | zero => intro m hm; simp [chunkAux] at hm
  | succ fuel ih =>
      intro m hm
      by_cases hmnil : m = []
      · subst hmnil; rw [chunkAux_nil] at hm; simp at hm
      · simp only [chunkAux, hmnil, if_false, List.mem_cons] at hm
        rcases hm with rfl | hm
        · have hpos : 0 < m.length := List.length_pos.mpr hmnil
          simp only [List.length_take]
          omega
        · exact ih (m.drop step) hm

theorem chunkAux_eq_nil_iff {step : Nat} :
    ∀ (fuel : Nat) (m : List Char), m.length ≤ fuel →
      (chunkAux fuel m step = [] ↔ m = []) := by
  intro fuel m hm
  cases fuel with
  | zero =>
      have : m = [] := List.eq_nil_of_length_eq_zero (by omega)
      subst this
      simp [chunkAux]
  | succ fuel =>
      by_cases hmnil : m = []
      · subst hmnil; simp [chunkAux]
      · simp [chunkAux, hmnil]

theorem chunk_dropLast_length {l : List Char} {step : Nat} (hstep : 0 < step) :
    ∀ x ∈ (chunk l step).dropLast, x.length = step := by
  suffices h : ∀ fuel (m : List Char), m.length ≤ fuel →
      ∀ x ∈ (chunkAux fuel m step).dropLast, x.length = step by
    unfold chunk
    split
    · simp
    · exact h l.length l le_rfl
  intro fuel
  induction fuel with
  | zero =>
      intro m hm
      have : m = [] := List.eq_nil_of_length_eq_zero (by omega)
      subst this
      simp [chunkAux]
  | succ fuel ih =>
      intro m hm x hx
      by_cases hmnil : m = []
      · subst hmnil; rw [chunkAux_nil] at hx; simp at hx
      · simp only [chunkAux, hmnil, if_false] at hx
        have hdle : (m.drop step).length ≤ fuel := by
          simp only [List.length_drop]
          have : 0 < m.length := List.length_pos.mpr hmnil
          omega
        by_cases hrest : chunkAux fuel (m.drop step) step = []
        · rw [hrest] at hx
          simp at hx
        · obtain ⟨r, rs, hrrs⟩ := List.exists_cons_of_ne_nil hrest
          rw [hrrs, List.dropLast_cons₂, List.mem_cons] at hx
          rcases hx with rfl | hx
          · have hdnil : m.drop step ≠ [] :=
              fun hnil => hrest ((chunkAux_eq_nil_iff fuel (m.drop step) hdle).mpr hnil)
            have hlt : step < m.length := by
              have := List.length_pos.mpr hdnil
              simp only [List.length_drop, List.length_nil] at this
              omega
            simp only [List.length_take]
            omega
          · exact ih (m.drop step) hdle x (hrrs ▸ hx)

theorem chunk_getLast_length {l : List Char} {step : Nat} (hstep : 0 < step)
    (hl : l ≠ []) {x : List Char} (hx : (chunk l step).getLast? = some x) :
    x.length = if l.length % step = 0 then step else l.length % step := by
  suffices h : ∀ fuel (m : List Char), m.length ≤ fuel → m ≠ [] →
      (chunkAux fuel m step).getLast? = some x →
      x.length = if m.length % step = 0 then step else m.length % step by
    unfold chunk at hx
    split at hx
    · simp at hx
    · exact h l.length l le_rfl hl hx
  intro fuel
  induction fuel with
  | zero =>
      intro m hm hmnil
      exact absurd (List.eq_nil_of_length_eq_zero (by omega)) hmnil
  | succ fuel ih =>
      intro m hm hmnil hx
      have hpos : 0 < m.length := List.length_pos.mpr hmnil
      simp only [chunkAux, hmnil, if_false] at hx
      have hdle : (m.drop step).length ≤ fuel := by
        simp only [List.length_drop]; omega
      by_cases hdnil : m.drop step = []
      · rw [hdnil, chunkAux_nil] at hx
        simp only [List.getLast?_singleton, Option.some_inj] at hx
        have hle : m.length ≤ step := by
          have := congrArg List.length hdnil
          simp only [List.length_drop, List.length_nil] at this
          omega
        subst hx
        rw [List.take_of_length_le hle]
        by_cases heq : m.length = step
        · simp [heq, Nat.mod_self]
        · have hlt : m.length < step := by omega
          rw [Nat.mod_eq_of_lt hlt, if_neg (by omega)]
      · have hrest : chunkAux fuel (m.drop step) step ≠ [] :=
          fun hnil => hdnil ((chunkAux_eq_nil_iff fuel (m.drop step) hdle).mp hnil)
        obtain ⟨r, rs, hrrs⟩ := List.exists_cons_of_ne_nil hrest
        rw [hrrs, List.getLast?_cons_cons] at hx
        have hlt : step < m.length := by
          have := List.length_pos.mpr hdnil
          simp only [List.length_drop, List.length_nil] at this
          omega
        have := ih (m.drop step) hdle hdnil (hrrs ▸ hx)
        simp only [List.length_drop, List.length_nil] at this
        have hmod : m.length % step = (m.length - step) % step := by
          conv_lhs => rw [show m.length = (m.length - step) + step by omega]
          rw [Nat.add_mod_right]
        rw [hmod]
        exact this

/-- The index-slicing loop of the Python source computes exactly the
consecutive-block partition `chunk`. -/
theorem map_rangeStep_chunk {l : List Char} {step : Nat} (hstep : 0 < step)
    (start : Nat) :
    (rangeStep start l.length step).map (fun i => (l.drop i).take step)
      = chunk (l.drop start) step := by
  suffices h : ∀ n start, l.length - start ≤ n →
      (rangeStep start l.length step).map (fun i => (l.drop i).take step)
        = chunk (l.drop start) step from
    h l.length start (Nat.sub_le _ _)
  intro n
  induction n with
  | zero =>
      intro start hn
      have hle : l.length ≤ start := by omega
      rw [rangeStep_nil hle, List.map_nil, List.drop_eq_nil_of_le hle, chunk_nil]
  | succ n ih =>
      intro start hn
      by_cases h : start < l.length
      · rw [rangeStep_cons hstep h, List.map_cons]
        have hdnil : l.drop start ≠ [] := by
          intro hnil
          have := congrArg List.length hnil
          simp only [List.length_drop, List.length_nil] at this
          omega
        rw [chunk_cons hstep hdnil]
        refine congrArg _ ?_
        rw [ih (start + step) (by omega), List.drop_drop, Nat.add_comm]
      · have hle : l.length ≤ start := by omega
        rw [rangeStep_nil hle, List.map_nil, List.drop_eq_nil_of_le hle, chunk_nil]

/-- `generate_one_time_pad` is the formatting stage applied to the drawn
pad: the draw is the only non-deterministic step. -/
theorem generate_eq_format (draw : Nat → Fin 26) (len g ll : Nat) :
    generate_one_time_pad draw len g ll = format_pad (all_chars draw len) g ll := by
  simp only [generate_one_time_pad, format_pad, all_chars_length]

/-- The formatting stage partitions the pad into `line_length`-blocks and
each line into `group_size`-blocks joined by single spaces. -/
theorem format_pad_eq_chunk (pad : List Char) {g ll : Nat} (hg : 0 < g)
    (hll : 0 < ll) :
    format_pad pad g ll
      = (chunk pad ll).map (fun seg => joinWithSpace (chunk seg g)) := by
  have houter := map_rangeStep_chunk (l := pad) hll 0
  rw [List.drop_zero] at houter
  unfold format_pad
  rw [← houter, List.map_map]
  apply List.map_congr_left
  intro i hi
  simp only [Function.comp_apply]
  refine congrArg _ ?_
  have := map_rangeStep_chunk (l := (pad.drop i).take ll) hg 0
  rwa [List.drop_zero] at this

/-! ### Separator stripping -/

theorem stripSpaces_eq_self {l : List Char} (h : ∀ c ∈ l, c ≠ ' ') :
    stripSpaces l = l :=
  List.filter_eq_self.mpr fun a ha => by simpa using h a ha

theorem stripSpaces_append (a b : List Char) :
    stripSpaces (a ++ b) = stripSpaces a ++ stripSpaces b := by
  simp [stripSpaces]

theorem stripSpaces_cons_space (l : List Char) :
    stripSpaces (' ' :: l) = stripSpaces l := by
  simp [stripSpaces]

theorem stripSpaces_joinWithSpace {gs : List (List Char)}
    (h : ∀ g ∈ gs, ∀ c ∈ g, c ≠ ' ') :
    stripSpaces (joinWithSpace gs) = gs.flatten := by
  induction gs with
  | nil => rfl
  | cons g gs ih =>
      cases gs with
      | nil =>
          show stripSpaces g = [g].flatten
          rw [stripSpaces_eq_self (h g (List.mem_cons_self g []))]
          simp
      | cons g2 rest =>
          show stripSpaces (g ++ ' ' :: joinWithSpace (g2 :: rest))
            = (g :: g2 :: rest).flatten
          rw [stripSpaces_append, stripSpaces_cons_space,
            stripSpaces_eq_self (h g (List.mem_cons_self g _)),
            ih (fun x hx => h x (List.mem_cons_of_mem g hx))]
          simp [List.flatten_cons]

theorem stripSpaces_flatten (L : List (List Char)) :
    stripSpaces L.flatten = (L.map stripSpaces).flatten := by
  induction L with
  | nil => rfl
  | cons a L ih =>
      rw [List.flatten_cons, stripSpaces_append, ih, List.map_cons,
        List.flatten_cons]

/-- Stripping the spaces from one formatted line recovers its segment of
the pad. -/
theorem stripSpaces_line {seg : List Char} {g : Nat} (hg : 0 < g)
    (hseg : ∀ c ∈ seg, c ≠ ' ') :
    stripSpaces (joinWithSpace (chunk seg g)) = seg := by
  rw [stripSpaces_joinWithSpace, chunk_flatten hg]
  intro x hx c hc
  exact hseg c (chunk_mem_subset hx c hc)

/-! ### Claim theorems -/

/-- C1: for every positive `length`, `group_size` and `line_length`,
concatenating the non-space characters of all lines returned by
`generate_one_time_pad`, in order, yields exactly the drawn pad: it has
exactly `length` characters, all uppercase letters A–Z. -/
theorem generate_strip_roundtrip (draw : Nat → Fin 26)
    (length group_size line_length : Nat) (_hlen : 0 < length)
    (hg : 0 < group_size) (hll : 0 < line_length) :
    stripSpaces (generate_one_time_pad draw length group_size line_length).flatten
        = all_chars draw length
    ∧ (stripSpaces
        (generate_one_time_pad draw length group_size line_length).flatten).length
        = length
    ∧ ∀ c ∈ stripSpaces
        (generate_one_time_pad draw length group_size line_length).flatten,
        c ∈ ascii_uppercase := by
  have hmain : stripSpaces
      (generate_one_time_pad draw length group_size line_length).flatten
      = all_chars draw length := by
    rw [generate_eq_format, format_pad_eq_chunk _ hg hll, stripSpaces_flatten,
      List.map_map]
    have hcongr : ∀ seg ∈ chunk (all_chars draw length) line_length,
        (stripSpaces ∘ fun seg => joinWithSpace (chunk seg group_size)) seg
          = id seg := by
      intro seg hseg
      simp only [Function.comp_apply, id]
      exact stripSpaces_line hg
        (fun c hc => all_chars_ne_space (chunk_mem_subset hseg c hc))
    rw [List.map_congr_left hcongr, List.map_id, chunk_flatten hll]
  refine ⟨hmain, ?_, ?_⟩
  · rw [hmain, all_chars_length]
  · rw [hmain]
    intro c hc
    exact mem_all_chars hc

theorem generate_strip_roundtrip_witness :
    0 < 3 ∧ 0 < 2 ∧ 0 < 2
    ∧ (stripSpaces (generate_one_time_pad (fun _ => (0 : Fin 26)) 3 2 2).flatten
        = all_chars (fun _ => (0 : Fin 26)) 3
      ∧ (stripSpaces
          (generate_one_time_pad (fun _ => (0 : Fin 26)) 3 2 2).flatten).length = 3
      ∧ ∀ c ∈ stripSpaces
          (generate_one_time_pad (fun _ => (0 : Fin 26)) 3 2 2).flatten,
          c ∈ ascii_uppercase) :=
  ⟨by decide, by decide, by decide,
    generate_strip_roundtrip (fun _ => (0 : Fin 26)) 3 2 2
      (by decide) (by decide) (by decide)⟩

/-- C3: for every positive `length`, `group_size` and `line_length`, the
number of lines returned by `generate_one_time_pad` is
`ceil(length / line_length)`, i.e. `(length + line_length - 1) / line_length`
in natural-number division. -/
theorem generate_line_count (draw : Nat → Fin 26)
    (length group_size line_length : Nat) (_hlen : 0 < length)
    (hg : 0 < group_size) (hll : 0 < line_length) :
    (generate_one_time_pad draw length group_size line_length).length
      = (length + line_length - 1) / line_length := by
  rw [generate_eq_format, format_pad_eq_chunk _ hg hll, List.length_map,
    chunk_length hll, all_chars_length]

theorem generate_line_count_witness :
    0 < 12 ∧ 0 < 5 ∧ 0 < 10
    ∧ (generate_one_time_pad (fun _ => (0 : Fin 26)) 12 5 10).length
        = (12 + 10 - 1) / 10 :=
  ⟨by decide, by decide, by decide,
    generate_line_count (fun _ => (0 : Fin 26)) 12 5 10
      (by decide) (by decide) (by decide)⟩

/-- C8: the formatting stage is a deterministic pure function of the drawn
pad and the two formatting parameters: two runs whose draws produce the same
character sequence return identical line sequences. -/
theorem generate_deterministic_given_pad (draw1 draw2 : Nat → Fin 26)
    (length group_size line_length : Nat)
    (h : all_chars draw1 length = all_chars draw2 length) :
    generate_one_time_pad draw1 length group_size line_length
      = generate_one_time_pad draw2 length group_size line_length := by
  rw [generate_eq_format, generate_eq_format, h]

theorem generate_deterministic_given_pad_witness :
    all_chars (fun _ => (0 : Fin 26)) 4
        = all_chars (fun i => if i < 4 then (0 : Fin 26) else 25) 4
    ∧ generate_one_time_pad (fun _ => (0 : Fin 26)) 4 2 3
        = generate_one_time_pad (fun i => if i < 4 then (0 : Fin 26) else 25) 4 2 3 :=
  ⟨by decide, generate_deterministic_given_pad
    (fun _ => (0 : Fin 26)) (fun i => if i < 4 then (0 : Fin 26) else 25) 4 2 3
    (by decide)⟩

/-- C10: with `length = 0` (outside the documented domain) and positive
formatting parameters, `generate_one_time_pad` returns the empty list and
no failure occurs. -/
theorem generate_zero_length (draw : Nat → Fin 26)
    (group_size line_length : Nat) (_hg : 0 < group_size)
    (_hll : 0 < line_length) :
    generate_one_time_pad draw 0 group_size line_length = [] := by
  simp [generate_one_time_pad, rangeStep_nil (Nat.le_refl 0)]

theorem generate_zero_length_witness :
    0 < 5 ∧ 0 < 10
    ∧ generate_one_time_pad (fun _ => (0 : Fin 26)) 0 5 10 = [] :=
  ⟨by decide, by decide,
    generate_zero_length (fun _ => (0 : Fin 26)) 5 10 (by decide) (by decide)⟩

/-- C4: for every positive `length`, `group_size` and `line_length`, every
line but possibly the last carries exactly `line_length` non-separator
characters, and the last line carries `length mod line_length` of them
(`line_length` when `line_length` divides `length`). -/
theorem generate_line_strip_lengths (draw : Nat → Fin 26)
    (length group_size line_length : Nat) (hlen : 0 < length)
    (hg : 0 < group_size) (hll : 0 < line_length) :
    (∀ line ∈ (generate_one_time_pad draw length group_size line_length).dropLast,
        (stripSpaces line).length = line_length)
    ∧ ∀ line,
        (generate_one_time_pad draw length group_size line_length).getLast?
          = some line →
        (stripSpaces line).length
          = if length % line_length = 0 then line_length
            else length % line_length := by
  have hpadnil : all_chars draw length ≠ [] := by
    intro h
    have := congrArg List.length h
    rw [all_chars_length] at this
    simp only [List.length_nil] at this
    omega
  constructor
  · intro line hline
    rw [generate_eq_format, format_pad_eq_chunk _ hg hll,
      ← List.map_dropLast] at hline
    obtain ⟨seg, hseg, rfl⟩ := List.mem_map.mp hline
    have hsegmem : seg ∈ chunk (all_chars draw length) line_length :=
      List.dropLast_subset _ hseg
    rw [stripSpaces_line hg
      (fun c hc => all_chars_ne_space (chunk_mem_subset hsegmem c hc))]
    exact chunk_dropLast_length hll seg hseg
  · intro line hline
    rw [generate_eq_format, format_pad_eq_chunk _ hg hll,
      List.getLast?_map] at hline
    obtain ⟨seg, hseg, hFline⟩ := Option.map_eq_some'.mp hline
    have hsegmem : seg ∈ chunk (all_chars draw length) line_length :=
      List.mem_of_mem_getLast? hseg
    rw [← hFline, stripSpaces_line hg
      (fun c hc => all_chars_ne_space (chunk_mem_subset hsegmem c hc))]
    have := chunk_getLast_length hll hpadnil hseg
    rwa [all_chars_length] at this

theorem generate_line_strip_lengths_witness :
    0 < 12 ∧ 0 < 5 ∧ 0 < 10
    ∧ ((∀ line ∈ (generate_one_time_pad (fun _ => (0 : Fin 26)) 12 5 10).dropLast,
          (stripSpaces line).length = 10)
      ∧ ∀ line,
          (generate_one_time_pad (fun _ => (0 : Fin 26)) 12 5 10).getLast?
            = some line →
          (stripSpaces line).length = if 12 % 10 = 0 then 10 else 12 % 10) :=
  ⟨by decide, by decide, by decide,
    generate_line_strip_lengths (fun _ => (0 : Fin 26)) 12 5 10
      (by decide) (by decide) (by decide)⟩

/-- C5: each returned line is the line's pad segment partitioned left to
right into consecutive groups of exactly `group_size` symbols (the last
group possibly shorter but never empty), joined by single spaces; the lines
correspond one to one with the `line_length`-segments of the pad. -/
theorem generate_lines_grouped (draw : Nat → Fin 26)
    (length group_size line_length : Nat) (_hlen : 0 < length)
    (hg : 0 < group_size) (hll : 0 < line_length) :
    generate_one_time_pad draw length group_size line_length
      = (chunk (all_chars draw length) line_length).map
          (fun seg => joinWithSpace (chunk seg group_size))
    ∧ ∀ seg ∈ chunk (all_chars draw length) line_length,
        (chunk seg group_size).flatten = seg
        ∧ (∀ grp ∈ (chunk seg group_size).dropLast, grp.length = group_size)
        ∧ ∀ grp ∈ chunk seg group_size,
            0 < grp.length ∧ grp.length ≤ group_size := by
  refine ⟨by rw [generate_eq_format, format_pad_eq_chunk _ hg hll], ?_⟩
  intro seg _hseg
  exact ⟨chunk_flatten hg,
    fun grp hgrp => chunk_dropLast_length hg grp hgrp,
    fun grp hgrp => ⟨chunk_mem_length_pos hg hgrp, chunk_mem_length_le hgrp⟩⟩

theorem generate_lines_grouped_witness :
    0 < 12 ∧ 0 < 5 ∧ 0 < 10
    ∧ (generate_one_time_pad (fun _ => (0 : Fin 26)) 12 5 10
        = (chunk (all_chars (fun _ => (0 : Fin 26)) 12) 10).map
            (fun seg => joinWithSpace (chunk seg 5))
      ∧ ∀ seg ∈ chunk (all_chars (fun _ => (0 : Fin 26)) 12) 10,
          (chunk seg 5).flatten = seg
          ∧ (∀ grp ∈ (chunk seg 5).dropLast, grp.length = 5)
          ∧ ∀ grp ∈ chunk seg 5, 0 < grp.length ∧ grp.length ≤ 5) :=
  ⟨by decide, by decide, by decide,
    generate_lines_grouped (fun _ => (0 : Fin 26)) 12 5 10
      (by decide) (by decide) (by decide)⟩

/-- C6: when `group_size ≥ line_length`, no returned line contains a space:
each line is a single group. -/
theorem generate_no_space_of_group_ge (draw : Nat → Fin 26)
    (length group_size line_length : Nat) (_hlen : 0 < length)
    (hll : 0 < line_length) (hge : line_length ≤ group_size) :
    ∀ line ∈ generate_one_time_pad draw length group_size line_length,
      ' ' ∉ line := by
  have hg : 0 < group_size := lt_of_lt_of_le hll hge
  intro line hline
  rw [generate_eq_format, format_pad_eq_chunk _ hg hll] at hline
  obtain ⟨seg, hseg, rfl⟩ := List.mem_map.mp hline
  have hsegne : seg ≠ [] :=
    List.ne_nil_of_length_pos (chunk_mem_length_pos hll hseg)
  have hsegle : seg.length ≤ group_size :=
    le_trans (chunk_mem_length_le hseg) hge
  rw [chunk_singleton hg hsegne hsegle]
  show ' ' ∉ joinWithSpace [seg]
  have hjoin : joinWithSpace [seg] = seg := rfl
  rw [hjoin]
  intro hsp
  exact all_chars_ne_space (chunk_mem_subset hseg ' ' hsp) rfl

theorem generate_no_space_of_group_ge_witness :
    0 < 12 ∧ 0 < 10 ∧ 10 ≤ 10
    ∧ ∀ line ∈ generate_one_time_pad (fun _ => (0 : Fin 26)) 12 10 10,
        ' ' ∉ line :=
  ⟨by decide, by decide, by decide,
    generate_no_space_of_group_ge (fun _ => (0 : Fin 26)) 12 10 10
      (by decide) (by decide) (by decide)⟩

/-- C7: every call `generate_one_time_pad(12, 5, 10)` returns exactly two
lines: the first is two 5-symbol groups of uppercase letters separated by a
single space, the second is the remaining 2 symbols as one group with no
space. -/
theorem generate_twelve_five_ten (draw : Nat → Fin 26) :
    ∃ g1 g2 g3 : List Char,
      generate_one_time_pad draw 12 5 10 = [g1 ++ ' ' :: g2, g3]
      ∧ g1.length = 5 ∧ g2.length = 5 ∧ g3.length = 2
      ∧ (∀ c ∈ g1, c ∈ ascii_uppercase) ∧ (∀ c ∈ g2, c ∈ ascii_uppercase)
      ∧ (∀ c ∈ g3, c ∈ ascii_uppercase) ∧ ' ' ∉ g3 := by
  have hlen : (all_chars draw 12).length = 12 := all_chars_length draw 12
  set pad := all_chars draw 12 with hpad
  have hne : pad ≠ [] := by
    intro h
    rw [h] at hlen
    simp at hlen
  have hd : (pad.drop 10).length = 2 := by rw [List.length_drop, hlen]
  have hdne : pad.drop 10 ≠ [] := by
    intro h
    rw [h] at hd
    simp at hd
  have hseg1 : (pad.take 10).length = 10 := by
    rw [List.length_take, hlen]
    norm_num
  have hseg1ne : pad.take 10 ≠ [] := by
    intro h
    rw [h] at hseg1
    simp at hseg1
  have hd5 : ((pad.take 10).drop 5).length = 5 := by
    rw [List.length_drop, hseg1]
  have hd5ne : (pad.take 10).drop 5 ≠ [] := by
    intro h
    rw [h] at hd5
    simp at hd5
  refine ⟨(pad.take 10).take 5, (pad.take 10).drop 5, pad.drop 10,
    ?_, ?_, ?_, ?_, ?_, ?_, ?_, ?_⟩
  · rw [generate_eq_format, format_pad_eq_chunk _ (by norm_num) (by norm_num)]
    have houter : chunk pad 10 = [pad.take 10, pad.drop 10] := by
      rw [chunk_cons (by norm_num) hne,
        chunk_singleton (by norm_num) hdne (by rw [hd]; norm_num)]
    have hinner1 : chunk (pad.take 10) 5
        = [(pad.take 10).take 5, (pad.take 10).drop 5] := by
      rw [chunk_cons (by norm_num) hseg1ne,
        chunk_singleton (by norm_num) hd5ne (le_of_eq hd5)]
    have hinner2 : chunk (pad.drop 10) 5 = [pad.drop 10] :=
      chunk_singleton (by norm_num) hdne (by rw [hd]; norm_num)
    rw [← hpad, houter, List.map_cons, List.map_cons, List.map_nil,
      hinner1, hinner2]
    rfl
  · rw [List.length_take, hseg1]
    norm_num
  · exact hd5
  · exact hd
  · intro c hc
    exact mem_all_chars (List.take_subset _ _ (List.take_subset _ _ hc))
  · intro c hc
    exact mem_all_chars (List.take_subset _ _ (List.drop_subset _ _ hc))
  · intro c hc
    exact mem_all_chars (List.drop_subset _ _ hc)
  · intro hsp
    exact all_chars_ne_space (List.drop_subset _ _ hsp) rfl

/-- C9: the GUI validator rejects any trio of inputs that does not parse to
three positive integers: an error dialog is shown and
`generate_one_time_pad` is not invoked (the outcome is never `generated`). -/
theorem on_generate_rejects_invalid (draw : Nat → Fin 26)
    (parse : String → Option Int) (ls gs lls : String)
    (h : ¬ ∃ l g ll : Int, parse ls = some l ∧ parse gs = some g
        ∧ parse lls = some ll ∧ 0 < l ∧ 0 < g ∧ 0 < ll) :
    ∃ msg, on_generate draw parse ls gs lls = GenOutcome.error msg := by
  rcases hpl : parse ls with _ | l
  · exact ⟨"Please enter valid integers for Length, Group Size, and Line Length.", by simp [on_generate, hpl]⟩
  rcases hpg : parse gs with _ | g
  · exact ⟨"Please enter valid integers for Length, Group Size, and Line Length.", by simp [on_generate, hpl, hpg]⟩
  rcases hpll : parse lls with _ | ll
  · exact ⟨"Please enter valid integers for Length, Group Size, and Line Length.", by simp [on_generate, hpl, hpg, hpll]⟩
  by_cases hcond : l ≤ 0 ∨ g ≤ 0 ∨ ll ≤ 0
  · refine ⟨"Values must be positive integers.", ?_⟩
    simp only [on_generate, hpl, hpg, hpll]
    rw [if_pos hcond]
  · exact absurd ⟨l, g, ll, hpl, hpg, hpll, by omega, by omega, by omega⟩ h

theorem on_generate_rejects_invalid_witness :
    (¬ ∃ l g ll : Int, (none : Option Int) = some l ∧ (none : Option Int) = some g
        ∧ (none : Option Int) = some ll ∧ 0 < l ∧ 0 < g ∧ 0 < ll)
    ∧ ∃ msg, on_generate (fun _ => (0 : Fin 26)) (fun _ => (none : Option Int))
        "abc" "5" "50" = GenOutcome.error msg :=
  ⟨by simp, on_generate_rejects_invalid (fun _ => (0 : Fin 26))
    (fun _ => (none : Option Int)) "abc" "5" "50" (by simp)⟩

end OTP
